import Mathlib

/-!
Verification of the CrossFlow flow-synthesis pipeline.

This file gives a shallow embedding of the core of the repository
(`src/simulator/edge_mapping.py`, `src/simulator/simulation.py`,
`src/simulator/utils.py`, `src/simulator/database.py`) and proves or refutes
the frozen claims C1-C10 about it.

Modelling conventions, used consistently below:
- Python `datetime` values are modelled as epoch seconds (`Int`); the code only
  compares and subtracts datetimes, so this is faithful.  Timestamps that fail
  to parse (`except: continue` branches) are modelled as `none` where the
  corresponding claim depends on them.
- Python `dict` objects coming from JSON are modelled as association lists in
  insertion order; `dict.get` is `dictGet` (first matching key), and
  `d[k] = v` is `dictSet` (replace in place, else append), matching CPython
  insertion-order semantics.
- CSV cell values that are fed to `int(...)` are modelled as `Option Int`
  (`none` = the string does not parse as an integer).
- `math.atan2`/`math.degrees` are modelled over the real numbers via
  `Complex.arg` (which, like `atan2`, produces the angle of `(x, y)` in
  `(-pi, pi]` and maps `(0, 0)` to `0`).
-/

namespace CrossFlow

/-! ### Generic dict operations (Python `dict.get` / `d[k] = v`) -/

/-- Python `dict.get(k)`: the value stored under `k`, or `None`.
Dicts are modelled as association lists in insertion order. -/
def dictGet {α : Type} (d : List (String × α)) (k : String) : Option α :=
  (d.find? (fun kv => kv.1 == k)).map (fun kv => kv.2)

/-- Python `d[k] = v` on a dict: overwrite the entry in place if the key is
present, otherwise append it, preserving insertion order. -/
def dictSet {α : Type} (d : List (String × α)) (k : String) (v : α) : List (String × α) :=
  if d.any (fun kv => kv.1 == k) then
    d.map (fun kv => if kv.1 == k then (k, v) else kv)
  else d ++ [(k, v)]

/-! ### Availability intervals (`utils.get_data_availability_by_intersection`,
lines 76-87, and the identical merge in `simulation.simulate_simulation`,
lines 244-254) -/

/-- An availability interval `(start, end)`, timestamps as epoch seconds. -/
abbrev Interval := Int × Int

/-- Python `intervals.sort(key=lambda x: x[0])`: stable sort ascending by
interval start. -/
def sortIntervals (l : List Interval) : List Interval :=
  l.mergeSort (fun a b => decide (a.1 ≤ b.1))

/-- The body of the merge loop: `merged` is the accumulator list; if it is
empty the interval is appended, else the interval is compared with the last
accumulated interval `last` and either merged into it
(`merged[-1] = (last[0], max(last[1], interval[1]))` when
`interval[0] <= last[1]`) or appended. -/
def mergeStep (merged : List Interval) (iv : Interval) : List Interval :=
  match merged.getLast? with
  | none => [iv]
  | some last =>
    if iv.1 ≤ last.2 then merged.dropLast ++ [(last.1, max last.2 iv.2)]
    else merged ++ [iv]

/-- The availability merge: sort by start, then fold the merge loop.
This is the algorithm shared by `utils.get_data_availability_by_intersection`
and `simulation.simulate_simulation`. -/
def merge_availability (l : List Interval) : List Interval :=
  (sortIntervals l).foldl mergeStep []

/-- Recursive restatement of the merge loop on an already-sorted list: the
loop only ever inspects and rewrites the last accumulated interval, which
makes it equivalent to this head recursion (proved below in
`foldl_mergeStep_eq`, `merge_availability_eq_mergeSorted`). -/
def mergeSorted : List Interval → List Interval
  | [] => []
  | [a] => [a]
  | a :: b :: rest =>
    if b.1 ≤ a.2 then mergeSorted ((a.1, max a.2 b.2) :: rest)
    else a :: mergeSorted (b :: rest)
termination_by l => l.length

theorem foldl_mergeStep_eq :
    ∀ (l acc : List Interval) (a : Interval),
      l.foldl mergeStep (acc ++ [a]) = acc ++ mergeSorted (a :: l) := by
  intro l
  induction l with
  | nil =>
    intro acc a
    simp [mergeSorted]
  | cons b rest ih =>
    intro acc a
    rw [List.foldl_cons]
    have hstep : mergeStep (acc ++ [a]) b =
        if b.1 ≤ a.2 then acc ++ [(a.1, max a.2 b.2)] else (acc ++ [a]) ++ [b] := by
      simp only [mergeStep, List.getLast?_concat]
      split
      · simp
      · rfl
    by_cases hb : b.1 ≤ a.2
    · rw [hstep, if_pos hb, ih acc (a.1, max a.2 b.2)]
      have : mergeSorted (a :: b :: rest) = mergeSorted ((a.1, max a.2 b.2) :: rest) := by
        rw [mergeSorted]
        simp [hb]
      rw [this]
    · rw [hstep, if_neg hb, ih (acc ++ [a]) b]
      have : mergeSorted (a :: b :: rest) = a :: mergeSorted (b :: rest) := by
        rw [mergeSorted]
        simp [hb]
      rw [this, List.append_assoc, List.singleton_append]

theorem merge_availability_eq_mergeSorted (l : List Interval) :
    merge_availability l = mergeSorted (sortIntervals l) := by
  unfold merge_availability
  cases h : sortIntervals l with
  | nil => simp [mergeSorted]
  | cons a rest =>
    have : mergeStep [] a = [] ++ [a] := by simp [mergeStep]
    rw [List.foldl_cons, this, foldl_mergeStep_eq]
    simp

/-! ### `simulation.time_overlaps` (lines 9-23)

Intervals whose `start`/`end` strings fail `strptime` are skipped by the code
before the comparison; the claims only concern already-parsed intervals, so
the predicate is modelled on parsed `(start, end)` pairs. -/

/-- `time_overlaps`: true iff the window `[sim_start, sim_end]` overlaps any
interval, via `sim_start < interval_end and sim_end > interval_start`. -/
def time_overlaps (intervals : List Interval) (sim_start sim_end : Int) : Bool :=
  intervals.any (fun iv => decide (sim_start < iv.2) && decide (sim_end > iv.1))

/-! ### `database.py` (lines 5-26)

`load_processed_db` reads the whole JSON document into a dict (degrading to
`{}` on a missing/corrupt file) and `update_processed_db` re-reads it, assigns
`db[junction_id] = record` and rewrites the whole document.  The persisted
document is modelled as the dict itself; the cache record type is an arbitrary
type parameter `α` since `update_processed_db` never inspects the record. -/

/-- `update_processed_db`: load the document, assign `db[junction_id] = record`
wholesale, persist the result.  The resulting document is returned. -/
def update_processed_db {α : Type} (db : List (String × α)) (junction_id : String)
    (record : α) : List (String × α) :=
  dictSet db junction_id record

theorem dictGet_map_overwrite {α : Type} {j k : String} (hk : k ≠ j) (r : α) :
    ∀ db : List (String × α),
      dictGet (db.map (fun kv => if kv.1 == j then (j, r) else kv)) k = dictGet db k := by
  intro db
  induction db with
  | nil => rfl
  | cons kv rest ih =>
    simp only [List.map_cons]
    by_cases hj : kv.1 = j
    · have hhead : (if (kv.1 == j) = true then (j, r) else kv) = (j, r) := by
        simp [hj]
      rw [hhead]
      unfold dictGet at *
      rw [List.find?_cons_of_neg _ (by simp only [beq_iff_eq]; exact Ne.symm hk),
        List.find?_cons_of_neg _ (by simp only [beq_iff_eq, hj]; exact Ne.symm hk)]
      exact ih
    · have hhead : (if (kv.1 == j) = true then (j, r) else kv) = kv := by
        simp [hj]
      rw [hhead]
      unfold dictGet at *
      by_cases hkk : kv.1 = k
      · rw [List.find?_cons_of_pos _ (by simp [hkk]), List.find?_cons_of_pos _ (by simp [hkk])]
      · rw [List.find?_cons_of_neg _ (by simp [hkk]), List.find?_cons_of_neg _ (by simp [hkk])]
        exact ih

theorem dictGet_append_single {α : Type} {j k : String} (hk : k ≠ j) (r : α)
    (db : List (String × α)) :
    dictGet (db ++ [(j, r)]) k = dictGet db k := by
  induction db with
  | nil =>
    unfold dictGet
    rw [List.nil_append,
      List.find?_cons_of_neg _ (by simp only [beq_iff_eq]; exact Ne.symm hk)]
  | cons kv rest ih =>
    unfold dictGet at *
    rw [List.cons_append]
    by_cases hkk : kv.1 = k
    · rw [List.find?_cons_of_pos _ (by simp [hkk]), List.find?_cons_of_pos _ (by simp [hkk])]
    · rw [List.find?_cons_of_neg _ (by simp [hkk]), List.find?_cons_of_neg _ (by simp [hkk])]
      exact ih

/-- C10: the cache update `put(j, r)` leaves the record stored under every
other junction id `k ≠ j` unchanged in the persisted document. -/
theorem C10_update_frame {α : Type} (db : List (String × α)) (j k : String) (r : α)
    (hk : k ≠ j) :
    dictGet (update_processed_db db j r) k = dictGet db k := by
  unfold update_processed_db dictSet
  split
  · exact dictGet_map_overwrite hk r db
  · exact dictGet_append_single hk r db

/-- Witness for C10 at a concrete document and keys. -/
theorem C10_update_frame_witness :
    ("k2" ≠ "j1") ∧
      dictGet (update_processed_db [("j1", 1), ("k2", 7)] "j1" (5 : Int)) "k2" =
        dictGet [("j1", (1 : Int)), ("k2", 7)] "k2" :=
  ⟨by decide, C10_update_frame [("j1", 1), ("k2", 7)] "j1" "k2" 5 (by decide)⟩

/-! ### C4/C7: correctness of the availability merge

Coverage is measured at rational time points, so that two integer-endpoint
intervals that neither overlap nor touch always leave an uncovered gap
(`(1,2)` and `(3,4)` miss `5/2`); this is the continuous-time reading of the
datetime intervals the code merges. -/

/-- Membership of a time point in a closed interval. -/
def ivMem (x : ℚ) (p : Interval) : Prop :=
  (p.1 : ℚ) ≤ x ∧ x ≤ (p.2 : ℚ)

/-- A point is covered by an interval list when it lies in some member. -/
def coveredBy (l : List Interval) (x : ℚ) : Prop :=
  ∃ p ∈ l, ivMem x p

/-- The output invariant of the merge: valid intervals, in ascending order
with a strict gap between an interval's end and the next start (pairwise
non-overlapping and non-adjacent, hence also sorted by start). -/
def Separated (l : List Interval) : Prop :=
  (∀ p ∈ l, p.1 ≤ p.2) ∧ l.Chain' (fun p q => p.2 < q.1)

theorem coveredBy_cons {p : Interval} {l : List Interval} {x : ℚ} :
    coveredBy (p :: l) x ↔ ivMem x p ∨ coveredBy l x := by
  simp [coveredBy, List.exists_mem_cons_iff]

theorem Separated.tail_cons {a : Interval} {t : List Interval}
    (h : Separated (a :: t)) : Separated t :=
  ⟨fun p hp => h.1 p (List.mem_cons_of_mem a hp), h.2.tail⟩

theorem Separated.lt_of_mem_tail :
    ∀ {a : Interval} {t : List Interval}, Separated (a :: t) →
      ∀ p ∈ t, a.2 < p.1 := by
  intro a t
  induction t generalizing a with
  | nil => intro _ p hp; cases hp
  | cons b t2 ih =>
    intro h p hp
    have hab : a.2 < b.1 := (List.chain'_cons.mp h.2).1
    rcases List.mem_cons.mp hp with rfl | hp2
    · exact hab
    · have hb : b.1 ≤ b.2 := h.1 b (List.mem_cons_of_mem a (List.mem_cons_self b t2))
      exact lt_trans hab (lt_of_le_of_lt hb (ih h.tail_cons p hp2))

/-- The head of the merged list keeps the start of the head of the input. -/
theorem mergeSorted_cons_head :
    ∀ (l : List Interval) (a : Interval),
      ∃ e t, mergeSorted (a :: l) = (a.1, e) :: t := by
  intro l
  induction l with
  | nil =>
    intro a
    exact ⟨a.2, [], by simp [mergeSorted]⟩
  | cons b rest ih =>
    intro a
    by_cases h : b.1 ≤ a.2
    · obtain ⟨e, t, ht⟩ := ih (a.1, max a.2 b.2)
      exact ⟨e, t, by simp only [mergeSorted, if_pos h]; exact ht⟩
    · exact ⟨a.2, mergeSorted (b :: rest), by simp only [mergeSorted, if_neg h]⟩

/-- On a start-sorted list of valid intervals, the merge loop produces a
separated list covering exactly the same points. -/
theorem mergeSorted_spec :
    ∀ l : List Interval,
      l.Pairwise (fun p q => p.1 ≤ q.1) → (∀ p ∈ l, p.1 ≤ p.2) →
      Separated (mergeSorted l) ∧
        (∀ x : ℚ, coveredBy (mergeSorted l) x ↔ coveredBy l x) := by
  intro l
  induction l using mergeSorted.induct with
  | case1 =>
    intro _ _
    exact ⟨⟨fun p hp => absurd hp (by simp [mergeSorted]), by simp [mergeSorted]⟩,
      fun x => by simp [mergeSorted]⟩
  | case2 a =>
    intro _ hv
    exact ⟨⟨fun p hp => hv p (by simpa [mergeSorted] using hp), by simp [mergeSorted]⟩,
      fun x => by simp [mergeSorted, coveredBy]⟩
  | case3 a b rest h ih =>
    intro hp hv
    have ha1b1 : a.1 ≤ b.1 := (List.pairwise_cons.mp hp).1 b (List.mem_cons_self b rest)
    have ha : a.1 ≤ a.2 := hv a (List.mem_cons_self a _)
    have hb : b.1 ≤ b.2 := hv b (List.mem_cons_of_mem a (List.mem_cons_self b rest))
    have hp2 : ((a.1, max a.2 b.2) :: rest).Pairwise (fun p q => p.1 ≤ q.1) := by
      rw [List.pairwise_cons]
      refine ⟨fun q hq => ?_, ((List.pairwise_cons.mp hp).2).tail⟩
      exact (List.pairwise_cons.mp hp).1 q (List.mem_cons_of_mem b hq)
    have hv2 : ∀ p ∈ (a.1, max a.2 b.2) :: rest, p.1 ≤ p.2 := by
      intro p hpmem
      rcases List.mem_cons.mp hpmem with rfl | hpm
      · exact le_trans ha (le_max_left _ _)
      · exact hv p (List.mem_cons_of_mem a (List.mem_cons_of_mem b hpm))
    obtain ⟨hsep, hcov⟩ := ih hp2 hv2
    have heq : mergeSorted (a :: b :: rest) = mergeSorted ((a.1, max a.2 b.2) :: rest) := by
      simp only [mergeSorted, if_pos h]
    refine ⟨heq ▸ hsep, fun x => ?_⟩
    rw [heq, hcov x, coveredBy_cons, coveredBy_cons, coveredBy_cons]
    constructor
    · rintro (⟨hx1, hx2⟩ | hx)
      · dsimp only at hx1 hx2
        rw [Int.cast_max, le_max_iff] at hx2
        by_cases hxa : x ≤ (a.2 : ℚ)
        · exact Or.inl ⟨hx1, hxa⟩
        · refine Or.inr (Or.inl ⟨?_, ?_⟩)
          · calc (b.1 : ℚ) ≤ (a.2 : ℚ) := by exact_mod_cast h
              _ ≤ x := le_of_not_le hxa
          · rcases hx2 with hx2 | hx2
            · exact absurd hx2 hxa
            · exact hx2
      · exact Or.inr (Or.inr hx)
    · rintro (⟨hx1, hx2⟩ | ⟨hx1, hx2⟩ | hx)
      · exact Or.inl ⟨hx1, by rw [Int.cast_max]; exact le_trans hx2 (le_max_left _ _)⟩
      · refine Or.inl ⟨?_, ?_⟩
        · calc ((a.1, max a.2 b.2).1 : ℚ) = (a.1 : ℚ) := rfl
            _ ≤ (b.1 : ℚ) := by exact_mod_cast ha1b1
            _ ≤ x := hx1
        · rw [Int.cast_max]
          exact le_trans hx2 (le_max_right _ _)
      · exact Or.inr hx
  | case4 a b rest h ih =>
    intro hp hv
    have hp2 : (b :: rest).Pairwise (fun p q => p.1 ≤ q.1) := (List.pairwise_cons.mp hp).2
    have hv2 : ∀ p ∈ b :: rest, p.1 ≤ p.2 :=
      fun p hpm => hv p (List.mem_cons_of_mem a hpm)
    obtain ⟨hsep, hcov⟩ := ih hp2 hv2
    have heq : mergeSorted (a :: b :: rest) = a :: mergeSorted (b :: rest) := by
      simp only [mergeSorted, if_neg h]
    obtain ⟨e, t, hht⟩ := mergeSorted_cons_head rest b
    refine ⟨?_, fun x => ?_⟩
    · rw [heq]
      refine ⟨fun p hpm => ?_, ?_⟩
      · rcases List.mem_cons.mp hpm with rfl | hpm2
        · exact hv p (List.mem_cons_self p _)
        · exact hsep.1 p hpm2
      · rw [List.chain'_cons']
        refine ⟨fun q hq => ?_, hsep.2⟩
        rw [hht] at hq
        simp only [List.head?_cons, Option.mem_def, Option.some.injEq] at hq
        subst hq
        exact not_le.mp h
    · rw [heq, coveredBy_cons, coveredBy_cons, hcov x]

theorem covered_ge_head {a : Interval} {t : List Interval} {x : ℚ}
    (hsep : Separated (a :: t)) (hx : coveredBy (a :: t) x) : (a.1 : ℚ) ≤ x := by
  rcases coveredBy_cons.mp hx with ⟨hx1, -⟩ | ⟨p, hp, hx1, -⟩
  · exact hx1
  · have ha : a.1 ≤ a.2 := hsep.1 a (List.mem_cons_self a t)
    have hlt : a.2 < p.1 := hsep.lt_of_mem_tail p hp
    have h1 : (a.1 : ℚ) ≤ (p.1 : ℚ) := by exact_mod_cast le_of_lt (lt_of_le_of_lt ha hlt)
    exact le_trans h1 hx1

theorem head_start_covered {a : Interval} {t : List Interval}
    (hsep : Separated (a :: t)) : coveredBy (a :: t) ((a.1 : ℚ)) :=
  coveredBy_cons.mpr (Or.inl ⟨le_refl _,
    by exact_mod_cast hsep.1 a (List.mem_cons_self a t)⟩)

/-- Two separated lists with the same coverage cannot have heads with equal
starts but a strictly shorter first end on the left: a point just after the
left head's end would be covered only on the right. -/
theorem ends_not_lt {a b : Interval} {t1 t2 : List Interval}
    (hsep1 : Separated (a :: t1)) (_hsep2 : Separated (b :: t2))
    (hcov : ∀ x : ℚ, coveredBy (a :: t1) x ↔ coveredBy (b :: t2) x)
    (hstart : a.1 = b.1) (hlt : a.2 < b.2) : False := by
  have ha : (a.1 : ℚ) ≤ (a.2 : ℚ) := by
    exact_mod_cast hsep1.1 a (List.mem_cons_self a t1)
  have hab : (a.2 : ℚ) < (b.2 : ℚ) := by exact_mod_cast hlt
  have hb1 : (b.1 : ℚ) = (a.1 : ℚ) := by exact_mod_cast congrArg Int.cast hstart.symm
  -- an upper bound m with a.2 < m, m ≤ b.2, and m at most any start in t1
  obtain ⟨m, hm1, hm2, hm3⟩ :
      ∃ m : ℚ, (a.2 : ℚ) < m ∧ m ≤ (b.2 : ℚ) ∧ ∀ p ∈ t1, m ≤ (p.1 : ℚ) := by
    cases t1 with
    | nil => exact ⟨(b.2 : ℚ), hab, le_refl _, fun p hp => absurd hp (by simp)⟩
    | cons p1 t1x =>
      have hp1 : (a.2 : ℚ) < (p1.1 : ℚ) := by
        exact_mod_cast hsep1.lt_of_mem_tail p1 (List.mem_cons_self p1 t1x)
      refine ⟨min (b.2 : ℚ) (p1.1 : ℚ), lt_min hab hp1, min_le_left _ _, ?_⟩
      intro p hp
      rcases List.mem_cons.mp hp with rfl | hp2
      · exact min_le_right _ _
      · have hv1 : (p1.1 : ℚ) ≤ (p1.2 : ℚ) := by
          exact_mod_cast hsep1.1 p1 (List.mem_cons_of_mem a (List.mem_cons_self p1 t1x))
        have hlt2 : (p1.2 : ℚ) < (p.1 : ℚ) := by
          exact_mod_cast (hsep1.tail_cons).lt_of_mem_tail p hp2
        calc min (b.2 : ℚ) (p1.1 : ℚ) ≤ (p1.1 : ℚ) := min_le_right _ _
          _ ≤ (p1.2 : ℚ) := hv1
          _ ≤ (p.1 : ℚ) := le_of_lt hlt2
  set x : ℚ := ((a.2 : ℚ) + m) / 2 with hxdef
  have hx1 : (a.2 : ℚ) < x := by rw [hxdef]; linarith
  have hx2 : x < m := by rw [hxdef]; linarith
  have hxright : coveredBy (b :: t2) x :=
    coveredBy_cons.mpr (Or.inl ⟨by rw [hb1]; linarith, by linarith⟩)
  have hxleft : coveredBy (a :: t1) x := (hcov x).mpr hxright
  rcases coveredBy_cons.mp hxleft with ⟨-, hxa2⟩ | ⟨p, hp, hxp1, -⟩
  · exact absurd hxa2 (not_le.mpr hx1)
  · exact absurd hxp1 (not_le.mpr (lt_of_lt_of_le hx2 (hm3 p hp)))

/-- A separated interval list is determined by the set of points it covers. -/
theorem separated_covered_unique :
    ∀ l1 l2 : List Interval, Separated l1 → Separated l2 →
      (∀ x : ℚ, coveredBy l1 x ↔ coveredBy l2 x) → l1 = l2 := by
  intro l1
  induction l1 with
  | nil =>
    intro l2 hsep1 hsep2 hcov
    cases l2 with
    | nil => rfl
    | cons b t2 =>
      exact absurd ((hcov _).mpr (head_start_covered hsep2)) (by simp [coveredBy])
  | cons a t1 ih =>
    intro l2 hsep1 hsep2 hcov
    cases l2 with
    | nil =>
      exact absurd ((hcov _).mp (head_start_covered hsep1)) (by simp [coveredBy])
    | cons b t2 =>
      have hstart : a.1 = b.1 := by
        have h1 : (b.1 : ℚ) ≤ (a.1 : ℚ) :=
          covered_ge_head hsep2 ((hcov _).mp (head_start_covered hsep1))
        have h2 : (a.1 : ℚ) ≤ (b.1 : ℚ) :=
          covered_ge_head hsep1 ((hcov _).mpr (head_start_covered hsep2))
        exact le_antisymm (by exact_mod_cast h2) (by exact_mod_cast h1)
      have hend : a.2 = b.2 := by
        rcases lt_trichotomy a.2 b.2 with hlt | heq | hgt
        · exact (ends_not_lt hsep1 hsep2 hcov hstart hlt).elim
        · exact heq
        · exact (ends_not_lt hsep2 hsep1 (fun x => (hcov x).symm) hstart.symm hgt).elim
      have hab : a = b := Prod.ext hstart hend
      subst hab
      have hcovt : ∀ x : ℚ, coveredBy t1 x ↔ coveredBy t2 x := by
        intro x
        constructor
        · rintro ⟨p, hp, hx1, hx2⟩
          have hgt : (a.2 : ℚ) < x := by
            have hlt := hsep1.lt_of_mem_tail p hp
            calc (a.2 : ℚ) < (p.1 : ℚ) := by exact_mod_cast hlt
              _ ≤ x := hx1
          have hr := (hcov x).mp (coveredBy_cons.mpr (Or.inr ⟨p, hp, hx1, hx2⟩))
          rcases coveredBy_cons.mp hr with ⟨-, hxa2⟩ | hxt
          · exact absurd hxa2 (not_le.mpr hgt)
          · exact hxt
        · rintro ⟨p, hp, hx1, hx2⟩
          have hgt : (a.2 : ℚ) < x := by
            have hlt := hsep2.lt_of_mem_tail p hp
            calc (a.2 : ℚ) < (p.1 : ℚ) := by exact_mod_cast hlt
              _ ≤ x := hx1
          have hr := (hcov x).mpr (coveredBy_cons.mpr (Or.inr ⟨p, hp, hx1, hx2⟩))
          rcases coveredBy_cons.mp hr with ⟨-, hxa2⟩ | hxt
          · exact absurd hxa2 (not_le.mpr hgt)
          · exact hxt
      rw [ih t2 hsep1.tail_cons hsep2.tail_cons hcovt]

theorem sortIntervals_pairwise (l : List Interval) :
    (sortIntervals l).Pairwise (fun p q => p.1 ≤ q.1) := by
  have h := @List.sorted_mergeSort Interval (fun a b : Interval => decide (a.1 ≤ b.1))
    (fun a b c h1 h2 => by
      simp only [decide_eq_true_eq] at *
      exact le_trans h1 h2)
    (fun a b => by
      simp only [Bool.or_eq_true, decide_eq_true_eq]
      exact le_total a.1 b.1)
    l
  exact h.imp (fun hpq => of_decide_eq_true hpq)

theorem coveredBy_of_perm {l1 l2 : List Interval} (h : l1.Perm l2) (x : ℚ) :
    coveredBy l1 x ↔ coveredBy l2 x := by
  simp only [coveredBy]
  constructor <;> rintro ⟨p, hp, hx⟩
  · exact ⟨p, h.mem_iff.mp hp, hx⟩
  · exact ⟨p, h.mem_iff.mpr hp, hx⟩

/-- The availability merge of a list of valid intervals is separated and
covers exactly the input points. -/
theorem merge_availability_spec (X : List Interval) (hX : ∀ p ∈ X, p.1 ≤ p.2) :
    Separated (merge_availability X) ∧
      ∀ x : ℚ, coveredBy (merge_availability X) x ↔ coveredBy X x := by
  rw [merge_availability_eq_mergeSorted]
  have hperm : (sortIntervals X).Perm X := List.mergeSort_perm X _
  obtain ⟨hsep, hcov⟩ := mergeSorted_spec (sortIntervals X) (sortIntervals_pairwise X)
    (fun p hp => hX p (hperm.mem_iff.mp hp))
  exact ⟨hsep, fun x => (hcov x).trans (coveredBy_of_perm hperm x)⟩

unseal List.merge List.mergeSort in
/-- C4: on valid inputs (`start <= end`), the merge returns the unique list
that is valid, sorted, pairwise non-overlapping and non-adjacent, and covers
exactly the union of the inputs; in particular any list with those properties
and the same coverage coincides with it (so it is the minimal such cover),
and `[(10,20),(15,25),(30,40)]` merges to `[(10,25),(30,40)]`. -/
theorem C4_merge_minimal_cover (X : List Interval) (hX : ∀ p ∈ X, p.1 ≤ p.2) :
    Separated (merge_availability X) ∧
      (∀ x : ℚ, coveredBy (merge_availability X) x ↔ coveredBy X x) ∧
      (∀ Y : List Interval, Separated Y →
        (∀ x : ℚ, coveredBy Y x ↔ coveredBy X x) → Y = merge_availability X) ∧
      merge_availability [(10, 20), (15, 25), (30, 40)] = [(10, 25), (30, 40)] := by
  obtain ⟨hsep, hcov⟩ := merge_availability_spec X hX
  refine ⟨hsep, hcov, fun Y hY hYcov => ?_, by decide⟩
  exact separated_covered_unique Y (merge_availability X) hY hsep
    (fun x => (hYcov x).trans (hcov x).symm)

/-- Witness for C4 at the concrete input of the spec example. -/
theorem C4_merge_minimal_cover_witness :
    Separated (merge_availability [((10 : Int), (20 : Int)), (15, 25), (30, 40)]) ∧
      (∀ x : ℚ, coveredBy (merge_availability [((10 : Int), (20 : Int)), (15, 25), (30, 40)]) x ↔
        coveredBy [((10 : Int), (20 : Int)), (15, 25), (30, 40)] x) ∧
      (∀ Y : List Interval, Separated Y →
        (∀ x : ℚ, coveredBy Y x ↔ coveredBy [((10 : Int), (20 : Int)), (15, 25), (30, 40)] x) →
        Y = merge_availability [((10 : Int), (20 : Int)), (15, 25), (30, 40)]) ∧
      merge_availability [(10, 20), (15, 25), (30, 40)] = [(10, 25), (30, 40)] :=
  C4_merge_minimal_cover [((10 : Int), (20 : Int)), (15, 25), (30, 40)] (by decide)

/-! #### C7: idempotence holds outright; order-independence needs valid
intervals -/

theorem mergeSorted_sorted_facts :
    ∀ l : List Interval, l.Pairwise (fun p q => p.1 ≤ q.1) →
      (mergeSorted l).Pairwise (fun p q => p.1 ≤ q.1) ∧
        (mergeSorted l).Chain' (fun p q => p.2 < q.1) ∧
        ∀ p ∈ mergeSorted l, ∃ q ∈ l, p.1 = q.1 := by
  intro l
  induction l using mergeSorted.induct with
  | case1 =>
    intro _
    refine ⟨by simp [mergeSorted], by simp [mergeSorted], fun p hp => ?_⟩
    simp [mergeSorted] at hp
  | case2 a =>
    intro _
    refine ⟨by simp [mergeSorted], by simp [mergeSorted], fun p hp => ?_⟩
    simp only [mergeSorted] at hp
    exact ⟨p, hp, rfl⟩
  | case3 a b rest h ih =>
    intro hp
    have hp2 : ((a.1, max a.2 b.2) :: rest).Pairwise (fun p q => p.1 ≤ q.1) := by
      rw [List.pairwise_cons]
      exact ⟨fun q hq => (List.pairwise_cons.mp hp).1 q (List.mem_cons_of_mem b hq),
        ((List.pairwise_cons.mp hp).2).tail⟩
    obtain ⟨hpw, hch, hsub⟩ := ih hp2
    have heq : mergeSorted (a :: b :: rest) = mergeSorted ((a.1, max a.2 b.2) :: rest) := by
      simp only [mergeSorted, if_pos h]
    rw [heq]
    refine ⟨hpw, hch, fun p hpm => ?_⟩
    obtain ⟨q, hq, hq1⟩ := hsub p hpm
    rcases List.mem_cons.mp hq with rfl | hq2
    · exact ⟨a, List.mem_cons_self a _, hq1⟩
    · exact ⟨q, List.mem_cons_of_mem a (List.mem_cons_of_mem b hq2), hq1⟩
  | case4 a b rest h ih =>
    intro hp
    obtain ⟨hpw, hch, hsub⟩ := ih (List.pairwise_cons.mp hp).2
    have heq : mergeSorted (a :: b :: rest) = a :: mergeSorted (b :: rest) := by
      simp only [mergeSorted, if_neg h]
    rw [heq]
    obtain ⟨e, t, hht⟩ := mergeSorted_cons_head rest b
    refine ⟨?_, ?_, ?_⟩
    · rw [List.pairwise_cons]
      refine ⟨fun q hq => ?_, hpw⟩
      obtain ⟨q2, hq2, hq21⟩ := hsub q hq
      rw [hq21]
      exact (List.pairwise_cons.mp hp).1 q2 hq2
    · rw [List.chain'_cons']
      refine ⟨fun q hq => ?_, hch⟩
      rw [hht] at hq
      simp only [List.head?_cons, Option.mem_def, Option.some.injEq] at hq
      subst hq
      exact not_le.mp h
    · intro p hpm
      rcases List.mem_cons.mp hpm with rfl | hpm2
      · exact ⟨p, List.mem_cons_self p _, rfl⟩
      · obtain ⟨q, hq, hq1⟩ := hsub p hpm2
        exact ⟨q, List.mem_cons_of_mem a hq, hq1⟩

theorem mergeSorted_of_chain :
    ∀ l : List Interval, l.Chain' (fun p q => p.2 < q.1) → mergeSorted l = l := by
  intro l
  induction l using mergeSorted.induct with
  | case1 => intro _; simp [mergeSorted]
  | case2 a => intro _; simp [mergeSorted]
  | case3 a b rest h ih =>
    intro hch
    exact absurd (List.chain'_cons.mp hch).1 (not_lt.mpr h)
  | case4 a b rest h ih =>
    intro hch
    have heq : mergeSorted (a :: b :: rest) = a :: mergeSorted (b :: rest) := by
      simp only [mergeSorted, if_neg h]
    rw [heq, ih (List.chain'_cons.mp hch).2]

theorem merge_availability_idem (X : List Interval) :
    merge_availability (merge_availability X) = merge_availability X := by
  obtain ⟨hpw, hch, -⟩ := mergeSorted_sorted_facts (sortIntervals X) (sortIntervals_pairwise X)
  have hsort : sortIntervals (mergeSorted (sortIntervals X)) = mergeSorted (sortIntervals X) := by
    unfold sortIntervals
    exact List.mergeSort_of_sorted (hpw.imp (fun hh => decide_eq_true hh))
  rw [merge_availability_eq_mergeSorted X, merge_availability_eq_mergeSorted, hsort,
    mergeSorted_of_chain _ hch]

theorem merge_availability_of_perm (X P : List Interval) (hperm : P.Perm X)
    (hX : ∀ p ∈ X, p.1 ≤ p.2) : merge_availability P = merge_availability X := by
  have hP : ∀ p ∈ P, p.1 ≤ p.2 := fun p hp => hX p (hperm.mem_iff.mp hp)
  obtain ⟨hsepP, hcovP⟩ := merge_availability_spec P hP
  obtain ⟨hsepX, hcovX⟩ := merge_availability_spec X hX
  exact separated_covered_unique _ _ hsepP hsepX
    (fun x => (hcovP x).trans ((coveredBy_of_perm hperm x).trans (hcovX x).symm))

/-- C7 as amended: the merge is idempotent on every input list, and its result
is order-independent on every list of valid pairs (`start <= end`); pairs with
`end < start` must be excluded from the order-independence part, as
`C7_counterexample` shows. -/
theorem C7_idempotent_and_order_independent :
    (∀ X : List Interval, merge_availability (merge_availability X) = merge_availability X) ∧
      ∀ X P : List Interval, P.Perm X → (∀ p ∈ X, p.1 ≤ p.2) →
        merge_availability P = merge_availability X :=
  ⟨merge_availability_idem, fun X P hperm hX => merge_availability_of_perm X P hperm hX⟩

/-- Witness for C7: idempotence at a concrete list, and order-independence
for a concrete permuted pair of valid intervals. -/
theorem C7_idempotent_and_order_independent_witness :
    merge_availability (merge_availability [((3 : Int), (1 : Int)), (3, 2)]) =
        merge_availability [((3 : Int), (1 : Int)), (3, 2)] ∧
      merge_availability [((15 : Int), (25 : Int)), (10, 20)] =
        merge_availability [((10 : Int), (20 : Int)), (15, 25)] :=
  ⟨C7_idempotent_and_order_independent.1 [((3 : Int), (1 : Int)), (3, 2)],
    C7_idempotent_and_order_independent.2 [((10 : Int), (20 : Int)), (15, 25)]
      [((15 : Int), (25 : Int)), (10, 20)] (by decide) (by decide)⟩

unseal List.merge List.mergeSort in
/-- Counterexample to C7 as stated: for the list `X = [(3,1),(3,2)]` (whose
pairs have `end < start`, which no code path rules out) the permutation
`[(3,2),(3,1)]` of `X` merges to a different result, so the merge is not
order-independent on arbitrary input lists. -/
theorem C7_counterexample :
    ([((3 : Int), (1 : Int)), (3, 2)] : List Interval).Perm [(3, 2), (3, 1)] ∧
      merge_availability [((3 : Int), (1 : Int)), (3, 2)] ≠
        merge_availability [((3 : Int), (2 : Int)), (3, 1)] := by
  constructor
  · decide
  · decide

/-! ### Flow synthesis (`simulation.generate_flows_for_intersection`, lines 25-94)

Rows are CSV dict rows: `start_time` / `end_time` are modelled as already
parsed epoch seconds (`none` when `datetime.fromisoformat` would raise, in
which case the code skips the row), and the remaining columns are the
movement-key/value pairs in dict order, each value being the result of
`int(value)` (`none` when that call would raise). -/

/-- A turning-movement CSV row. -/
structure Row where
  start_time : Option Int
  end_time : Option Int
  items : List (String × Option Int)

/-- The per-junction edge mapping `{incoming: dir -> [edge id], outgoing:
dir -> [edge id]}`. -/
structure JunctionMapping where
  incoming : List (String × List String)
  outgoing : List (String × List String)

/-- One emitted `<flow .../>` element.  The XML attributes `begin`, `end`,
`from`, `to`, `type` are rendered as the fields `fbegin`, `fend`, `fromEdge`,
`toEdge`, `vtype` (`begin`, `end` and `from` are Lean keywords); the numeric
attributes are serialized with `str(...)` in the code and kept as integers
here. -/
structure Flow where
  id : String
  fbegin : Int
  fend : Int
  number : Int
  fromEdge : String
  toEdge : String
  vtype : String
deriving DecidableEq

/-- Python `str.split("_")` for the single-character separator used by the
code, structurally over the character list. -/
def splitUnderscoreChars : List Char → List (List Char)
  | [] => [[]]
  | c :: cs =>
    let r := splitUnderscoreChars cs
    if c = '_' then [] :: r
    else
      match r with
      | [] => [[c]]
      | h :: t => (c :: h) :: t

/-- `key.split("_")`. -/
def splitKey (k : String) : List String :=
  (splitUnderscoreChars k.toList).map String.mk

/-- Python `str.lower()` (the keys are ASCII). -/
def strLower (s : String) : String :=
  String.mk (s.toList.map Char.toLower)

/-- The key parse of lines 51-59: `parts = key.split("_")`; three parts
destructure directly; four parts additionally require the second to be
`appr` case-insensitively; any other arity is skipped (`none`). -/
def keyParts (key : String) : Option (String × String × String) :=
  match splitKey key with
  | [pfx, vehicle_str, movement] => some (pfx, vehicle_str, movement)
  | [pfx, appr, vehicle_str, movement] =>
    if strLower appr ≠ "appr" then none else some (pfx, vehicle_str, movement)
  | _ => none

/-- `incoming_mapping` dict (line 27). -/
def incoming_mapping : List (String × String) :=
  [("n", "north"), ("s", "south"), ("e", "east"), ("w", "west")]

/-- `outgoing_mapping` nested dict (lines 28-32): movement letter, then origin
letter, to destination direction. -/
def outgoing_mapping : List (String × List (String × String)) :=
  [("r", [("n", "west"), ("e", "north"), ("s", "east"), ("w", "south")]),
   ("t", [("n", "south"), ("e", "west"), ("s", "north"), ("w", "east")]),
   ("l", [("n", "east"), ("e", "south"), ("s", "west"), ("w", "north")])]

/-- `ignore_keys` metadata columns (lines 33-36). -/
def ignore_keys : List String :=
  ["_id", "count_id", "count_date", "location_name", "longitude", "latitude",
   "centreline_type", "centreline_id", "px", "start_time", "end_time"]

/-- The loop body of lines 48-93 for a single `(key, value)` item of a row:
`.ok none` models `continue` (key skipped), `.error` models the
`raise ValueError` of lines 76-80, `.ok (some flow)` models appending a flow
element.  The error message drops the quote characters of the Python
f-string but keeps its content. -/
def processKey (mapping : JunctionMapping) (intersection_id : String)
    (base_time duration : Int) (key : String) (value : Option Int) :
    Except String (Option Flow) :=
  if key ∈ ignore_keys then .ok none
  else
    match keyParts key with
    | none => .ok none
    | some (pfx, vehicle_str, movement) =>
      let vehicle? : Option String :=
        if vehicle_str = "cars" then some "car"
        else if vehicle_str = "truck" ∨ vehicle_str = "bus" then some vehicle_str
        else none
      match vehicle? with
      | none => .ok none
      | some vehicle =>
        match value with
        | none => .ok none
        | some count =>
          if count ≤ 0 then .ok none
          else
            match dictGet incoming_mapping (strLower pfx),
                dictGet ((dictGet outgoing_mapping (strLower movement)).getD [])
                  (strLower pfx) with
            | some from_dir, some to_dir =>
              if (dictGet mapping.incoming from_dir).getD [] = [] ∨
                  (dictGet mapping.outgoing to_dir).getD [] = [] then
                .error ("Incomplete edge mapping for key " ++ key ++
                  ": missing incoming " ++ from_dir ++ " or outgoing " ++ to_dir ++ ".")
              else
                .ok (some {
                  id := intersection_id ++ "_" ++ key ++ "_" ++ toString base_time
                  fbegin := base_time
                  fend := base_time + duration
                  number := count
                  fromEdge := ((dictGet mapping.incoming from_dir).getD []).headD ""
                  toEdge := ((dictGet mapping.outgoing to_dir).getD []).headD ""
                  vtype := vehicle })
            | _, _ => .ok none

/-- The inner `for key, value in row.items()` loop: flows accumulate in order;
a raise aborts the whole call. -/
def processItems (mapping : JunctionMapping) (intersection_id : String)
    (base_time duration : Int) : List (String × Option Int) → Except String (List Flow)
  | [] => .ok []
  | (key, value) :: rest =>
    match processKey mapping intersection_id base_time duration key value with
    | .error e => .error e
    | .ok none => processItems mapping intersection_id base_time duration rest
    | .ok (some f) =>
      match processItems mapping intersection_id base_time duration rest with
      | .error e => .error e
      | .ok fs => .ok (f :: fs)

/-- One iteration of the `for row in rows` loop (lines 38-47): skip the row if
either timestamp fails to parse or `row_start` is outside
`[simulation_start, simulation_end)`; otherwise process its items with
`base_time = row_start - simulation_start` and
`duration = row_end - row_start` (seconds). -/
def processRow (mapping : JunctionMapping) (intersection_id : String)
    (simulation_start simulation_end : Int) (row : Row) : Except String (List Flow) :=
  match row.start_time, row.end_time with
  | some row_start, some row_end =>
    if row_start < simulation_start ∨ row_start ≥ simulation_end then .ok []
    else
      processItems mapping intersection_id (row_start - simulation_start)
        (row_end - row_start) row.items
  | _, _ => .ok []

/-- The row loop, concatenating each row's flows in order. -/
def processRows (mapping : JunctionMapping) (intersection_id : String)
    (simulation_start simulation_end : Int) : List Row → Except String (List Flow)
  | [] => .ok []
  | row :: rest =>
    match processRow mapping intersection_id simulation_start simulation_end row with
    | .error e => .error e
    | .ok fs =>
      match processRows mapping intersection_id simulation_start simulation_end rest with
      | .error e => .error e
      | .ok fs2 => .ok (fs ++ fs2)

/-- `generate_flows_for_intersection` (lines 25-94): the full list of flow
records for the intersection, or the `ValueError` raised at the first
incompletely-mapped movement key. -/
def generate_flows_for_intersection (mapping : JunctionMapping) (rows : List Row)
    (intersection_id : String) (simulation_start simulation_end : Int) :
    Except String (List Flow) :=
  processRows mapping intersection_id simulation_start simulation_end rows

/-! ### C8: per-key skip semantics -/

/-- The movement-key grammar of spec section 4.6: origin letter in `n,s,e,w`,
optional `appr` marker, a vehicle token, and a turn letter in `r,l,t`
(letters case-insensitively). -/
def keyGrammarOk (key : String) : Bool :=
  match splitKey key with
  | [pfx, _, movement] =>
    decide ((strLower pfx = "n" ∨ strLower pfx = "s" ∨ strLower pfx = "e" ∨ strLower pfx = "w") ∧
      (strLower movement = "r" ∨ strLower movement = "l" ∨ strLower movement = "t"))
  | [pfx, appr, _, movement] =>
    decide (strLower appr = "appr" ∧
      (strLower pfx = "n" ∨ strLower pfx = "s" ∨ strLower pfx = "e" ∨ strLower pfx = "w") ∧
      (strLower movement = "r" ∨ strLower movement = "l" ∨ strLower movement = "t"))
  | _ => false

/-- The vehicle token of a movement key, when the key parses. -/
def keyVehicleToken (key : String) : Option String :=
  (keyParts key).map (fun t => t.2.1)

theorem processKey_of_keyParts_none {mapping : JunctionMapping} {intersection_id : String}
    {base_time duration : Int} {key : String} {value : Option Int}
    (h : keyParts key = none) :
    processKey mapping intersection_id base_time duration key value = .ok none := by
  unfold processKey
  split
  · rfl
  · rw [h]

theorem processKey_of_vehicle_bad {mapping : JunctionMapping} {intersection_id : String}
    {base_time duration : Int} {key : String} {value : Option Int}
    {pfx veh mov : String}
    (h : keyParts key = some (pfx, veh, mov))
    (h1 : veh ≠ "cars") (h2 : veh ≠ "truck") (h3 : veh ≠ "bus") :
    processKey mapping intersection_id base_time duration key value = .ok none := by
  unfold processKey
  split
  · rfl
  · rw [h]
    simp only [if_neg h1, if_neg (by rintro (rfl | rfl) <;> simp_all : ¬(veh = "truck" ∨ veh = "bus"))]

theorem processKey_of_value_none {mapping : JunctionMapping} {intersection_id : String}
    {base_time duration : Int} {key : String} :
    processKey mapping intersection_id base_time duration key none = .ok none := by
  unfold processKey
  split
  · rfl
  · cases hkp : keyParts key with
    | none => rfl
    | some t =>
      obtain ⟨pfx, veh, mov⟩ := t
      by_cases h1 : veh = "cars"
      · simp [h1]
      · by_cases h2 : veh = "truck" ∨ veh = "bus"
        · simp [if_neg h1, if_pos h2]
        · simp [if_neg h1, if_neg h2]

theorem processKey_of_count_nonpos {mapping : JunctionMapping} {intersection_id : String}
    {base_time duration : Int} {key : String} {c : Int} (hc : c ≤ 0) :
    processKey mapping intersection_id base_time duration key (some c) = .ok none := by
  unfold processKey
  split
  · rfl
  · cases hkp : keyParts key with
    | none => rfl
    | some t =>
      obtain ⟨pfx, veh, mov⟩ := t
      by_cases h1 : veh = "cars"
      · simp [h1, if_pos hc]
      · by_cases h2 : veh = "truck" ∨ veh = "bus"
        · simp [if_neg h1, if_pos h2, if_pos hc]
        · simp [if_neg h1, if_neg h2]

theorem processKey_of_dirs_none {mapping : JunctionMapping} {intersection_id : String}
    {base_time duration : Int} {key : String} {value : Option Int}
    {pfx veh mov : String}
    (h : keyParts key = some (pfx, veh, mov))
    (hdir : dictGet incoming_mapping (strLower pfx) = none ∨
      dictGet ((dictGet outgoing_mapping (strLower mov)).getD []) (strLower pfx) = none) :
    processKey mapping intersection_id base_time duration key value = .ok none := by
  have hmatch : ∀ (vehicle : String) (count : Int),
      (match dictGet incoming_mapping (strLower pfx),
          dictGet ((dictGet outgoing_mapping (strLower mov)).getD []) (strLower pfx) with
        | some from_dir, some to_dir =>
          if (dictGet mapping.incoming from_dir).getD [] = [] ∨
              (dictGet mapping.outgoing to_dir).getD [] = [] then
            Except.error ("Incomplete edge mapping for key " ++ key ++
              ": missing incoming " ++ from_dir ++ " or outgoing " ++ to_dir ++ ".")
          else
            Except.ok (some {
              id := intersection_id ++ "_" ++ key ++ "_" ++ toString base_time
              fbegin := base_time
              fend := base_time + duration
              number := count
              fromEdge := ((dictGet mapping.incoming from_dir).getD []).headD ""
              toEdge := ((dictGet mapping.outgoing to_dir).getD []).headD ""
              vtype := vehicle })
        | _, _ => Except.ok none) = (Except.ok none : Except String (Option Flow)) := by
    intro vehicle count
    cases hin : dictGet incoming_mapping (strLower pfx) with
    | none => rfl
    | some fd =>
      cases hout : dictGet ((dictGet outgoing_mapping (strLower mov)).getD [])
          (strLower pfx) with
      | none => rfl
      | some td =>
        rcases hdir with hd | hd
        · rw [hd] at hin; cases hin
        · rw [hd] at hout; cases hout
  unfold processKey
  split
  · rfl
  · rw [h]
    cases value with
    | none =>
      by_cases h1 : veh = "cars"
      · simp only [if_pos h1]
      · by_cases h2 : veh = "truck" ∨ veh = "bus"
        · simp only [if_neg h1, if_pos h2]
        · simp only [if_neg h1, if_neg h2]
    | some c =>
      by_cases hc : c ≤ 0
      · by_cases h1 : veh = "cars"
        · simp only [if_pos h1, if_pos hc]
        · by_cases h2 : veh = "truck" ∨ veh = "bus"
          · simp only [if_neg h1, if_pos h2, if_pos hc]
          · simp only [if_neg h1, if_neg h2]
      · by_cases h1 : veh = "cars"
        · simp only [if_pos h1, if_neg hc]
          exact hmatch "car" c
        · by_cases h2 : veh = "truck" ∨ veh = "bus"
          · simp only [if_neg h1, if_pos h2, if_neg hc]
            exact hmatch veh c
          · simp only [if_neg h1, if_neg h2]

theorem incoming_letter_none {p : String}
    (h : ¬(p = "n" ∨ p = "s" ∨ p = "e" ∨ p = "w")) :
    dictGet incoming_mapping p = none := by
  push_neg at h
  obtain ⟨h1, h2, h3, h4⟩ := h
  unfold dictGet incoming_mapping
  rw [List.find?_cons_of_neg _ (by simp only [beq_iff_eq]; exact fun e => h1 e.symm),
    List.find?_cons_of_neg _ (by simp only [beq_iff_eq]; exact fun e => h2 e.symm),
    List.find?_cons_of_neg _ (by simp only [beq_iff_eq]; exact fun e => h3 e.symm),
    List.find?_cons_of_neg _ (by simp only [beq_iff_eq]; exact fun e => h4 e.symm)]
  rfl

theorem outgoing_letter_none {m : String}
    (h : ¬(m = "r" ∨ m = "l" ∨ m = "t")) :
    dictGet outgoing_mapping m = none := by
  push_neg at h
  obtain ⟨h1, h2, h3⟩ := h
  unfold dictGet outgoing_mapping
  rw [List.find?_cons_of_neg _ (by simp only [beq_iff_eq]; exact fun e => h1 e.symm),
    List.find?_cons_of_neg _ (by simp only [beq_iff_eq]; exact fun e => h3 e.symm),
    List.find?_cons_of_neg _ (by simp only [beq_iff_eq]; exact fun e => h2 e.symm)]
  rfl

theorem processItems_skip_middle {mapping : JunctionMapping} {intersection_id : String}
    {base_time duration : Int} {key : String} {value : Option Int}
    (h : processKey mapping intersection_id base_time duration key value = .ok none) :
    ∀ pre post : List (String × Option Int),
      processItems mapping intersection_id base_time duration (pre ++ (key, value) :: post)
        = processItems mapping intersection_id base_time duration (pre ++ post) := by
  intro pre
  induction pre with
  | nil =>
    intro post
    simp only [List.nil_append, processItems, h]
  | cons kv rest ih =>
    intro post
    obtain ⟨k2, v2⟩ := kv
    simp only [List.cons_append, processItems, List.append_eq]
    rw [ih]

/-- C8: a movement key that fails the section-4.6 grammar, or whose vehicle
token is outside `cars/truck/bus`, or whose count is non-integer (`none`),
zero or negative, is skipped by itself: `processKey` yields no flow and no
error, and removing the key from a row leaves the processing of the remaining
items unchanged. -/
theorem C8_bad_key_skipped (mapping : JunctionMapping) (intersection_id : String)
    (base_time duration : Int) (key : String) (value : Option Int)
    (pre post : List (String × Option Int))
    (hbad : keyGrammarOk key = false
      ∨ (∃ veh, keyVehicleToken key = some veh ∧
          veh ≠ "cars" ∧ veh ≠ "truck" ∧ veh ≠ "bus")
      ∨ value = none
      ∨ (∃ c, value = some c ∧ c ≤ 0)) :
    processKey mapping intersection_id base_time duration key value = .ok none ∧
      processItems mapping intersection_id base_time duration
          (pre ++ (key, value) :: post)
        = processItems mapping intersection_id base_time duration (pre ++ post) := by
  have hskip : processKey mapping intersection_id base_time duration key value = .ok none := by
    rcases hbad with hg | ⟨veh, hveh, h1, h2, h3⟩ | hv | ⟨c, hv, hc⟩
    · -- the grammar fails
      rcases hkp : keyParts key with - | ⟨pfx, veh, mov⟩
      · exact processKey_of_keyParts_none hkp
      · -- the key splits into 3 parts, or 4 with a valid appr marker
        apply processKey_of_dirs_none hkp
        have hletters : ¬((strLower pfx = "n" ∨ strLower pfx = "s" ∨ strLower pfx = "e" ∨
            strLower pfx = "w") ∧
            (strLower mov = "r" ∨ strLower mov = "l" ∨ strLower mov = "t")) := by
          unfold keyParts at hkp
          unfold keyGrammarOk at hg
          rcases hsp : splitKey key with - | ⟨a, - | ⟨b, - | ⟨c', - | ⟨d, - | e⟩⟩⟩⟩ <;>
            rw [hsp] at hkp hg <;> dsimp only at hkp hg
          · cases hkp
          · cases hkp
          · cases hkp
          · -- three parts
            rw [decide_eq_false_iff_not] at hg
            rcases (by simpa using hkp : a = pfx ∧ b = veh ∧ c' = mov) with ⟨rfl, -, rfl⟩
            exact hg
          · -- four parts
            by_cases happr : strLower b ≠ "appr"
            · rw [if_pos happr] at hkp; cases hkp
            · rw [if_neg happr] at hkp
              rw [decide_eq_false_iff_not] at hg
              rcases (by simpa using hkp : a = pfx ∧ c' = veh ∧ d = mov) with ⟨rfl, -, rfl⟩
              rw [not_not] at happr
              intro hcon
              exact hg ⟨happr, hcon.1, hcon.2⟩
          · cases hkp
        rw [not_and_or] at hletters
        rcases hletters with hp | hm
        · exact Or.inl (incoming_letter_none hp)
        · refine Or.inr ?_
          rw [outgoing_letter_none hm]
          rfl
    · -- the vehicle token is outside the vocabulary
      unfold keyVehicleToken at hveh
      rcases hkp : keyParts key with - | ⟨pfx, veh2, mov⟩
      · exact processKey_of_keyParts_none hkp
      · rw [hkp] at hveh
        obtain rfl : veh = veh2 := by simpa using hveh.symm
        exact processKey_of_vehicle_bad hkp h1 h2 h3
    · exact hv ▸ processKey_of_value_none
    · exact hv ▸ processKey_of_count_nonpos hc
  exact ⟨hskip, processItems_skip_middle hskip pre post⟩

/-- Witness for C8: the unparseable key `foo_bike_x` with count 5 is skipped
and does not disturb the neighbouring valid key. -/
theorem C8_bad_key_skipped_witness :
    processKey { incoming := [("north", ["e1"])], outgoing := [("south", ["e2"])] }
        "J1" 0 900 "foo_bike_x" (some 5) = .ok none ∧
      processItems { incoming := [("north", ["e1"])], outgoing := [("south", ["e2"])] }
          "J1" 0 900 [("n_appr_cars_t", some 5), ("foo_bike_x", some 5)]
        = processItems { incoming := [("north", ["e1"])], outgoing := [("south", ["e2"])] }
          "J1" 0 900 [("n_appr_cars_t", some 5)] :=
  C8_bad_key_skipped { incoming := [("north", ["e1"])], outgoing := [("south", ["e2"])] }
    "J1" 0 900 "foo_bike_x" (some 5) [("n_appr_cars_t", some 5)] []
    (Or.inl (by decide))

/-! ### C2: hard stop of a whole intersection on an incompletely-mapped key -/

/-- The inputs of one iteration of the intersection loop of
`simulate_simulation` that reach the flow-generation stage (lines 311-355):
at that point the junction is resolved and the mapping available. -/
structure InterInput where
  mapping : JunctionMapping
  rows : List Row
  junction_id : String
  location_name : String

/-- The state the flow-generation stage threads through the intersection
loop: the `<flow>` children of `routes_root`, the `simulation_details`
entries (summarised by junction id), and the `incomplete_data` diagnostics
list. -/
structure PipeState where
  flows : List Flow
  details : List String
  incomplete : List String
deriving DecidableEq

/-- Lines 311-355 for one intersection: a raise inside
`generate_flows_for_intersection` is caught and appends exactly one
diagnostic, an empty flow list appends a no-flows diagnostic, otherwise all
flows are appended to the routes and a details entry is recorded.  (Python
f-string quote characters are dropped from the messages.) -/
def flowStageStep (simulation_start simulation_end : Int) (st : PipeState)
    (it : InterInput) : PipeState :=
  match generate_flows_for_intersection it.mapping it.rows it.junction_id
      simulation_start simulation_end with
  | .error e =>
    { st with incomplete := st.incomplete ++
        ["Intersection " ++ it.location_name ++ " (ID: " ++ it.junction_id ++
          ") CSV processing error: " ++ e] }
  | .ok fs =>
    if fs = [] then
      { st with incomplete := st.incomplete ++
          ["Intersection " ++ it.location_name ++ " (ID: " ++ it.junction_id ++
            ") has no flows for the selected time window."] }
    else
      { st with flows := st.flows ++ fs, details := st.details ++ [it.junction_id] }

/-- The flow-generation stage of the intersection loop, over the remaining
intersections. -/
def runFlowStage (simulation_start simulation_end : Int) (st : PipeState) :
    List InterInput → PipeState
  | [] => st
  | it :: rest =>
    runFlowStage simulation_start simulation_end
      (flowStageStep simulation_start simulation_end st it) rest

theorem processKey_error_of_missing_dir {mapping : JunctionMapping}
    {intersection_id : String} {base_time duration : Int} {key : String}
    {value : Option Int} {pfx veh mov from_dir to_dir : String} {c : Int}
    (hkey : key ∉ ignore_keys)
    (hkp : keyParts key = some (pfx, veh, mov))
    (hveh : veh = "cars" ∨ veh = "truck" ∨ veh = "bus")
    (hval : value = some c) (hc : 0 < c)
    (hfrom : dictGet incoming_mapping (strLower pfx) = some from_dir)
    (hto : dictGet ((dictGet outgoing_mapping (strLower mov)).getD [])
      (strLower pfx) = some to_dir)
    (hmiss : (dictGet mapping.incoming from_dir).getD [] = [] ∨
      (dictGet mapping.outgoing to_dir).getD [] = []) :
    processKey mapping intersection_id base_time duration key value =
      .error ("Incomplete edge mapping for key " ++ key ++ ": missing incoming " ++
        from_dir ++ " or outgoing " ++ to_dir ++ ".") := by
  unfold processKey
  rw [if_neg hkey, hkp]
  subst hval
  have hcount : ¬ c ≤ 0 := not_le.mpr hc
  rcases hveh with rfl | rfl | rfl
  · dsimp only
    rw [if_pos rfl]
    dsimp only
    rw [if_neg hcount, hfrom, hto]
    dsimp only
    rw [if_pos hmiss]
  · dsimp only
    rw [if_neg (by decide : ¬("truck" : String) = "cars"), if_pos (Or.inl rfl)]
    dsimp only
    rw [if_neg hcount, hfrom, hto]
    dsimp only
    rw [if_pos hmiss]
  · dsimp only
    rw [if_neg (by decide : ¬("bus" : String) = "cars"), if_pos (Or.inr rfl)]
    dsimp only
    rw [if_neg hcount, hfrom, hto]
    dsimp only
    rw [if_pos hmiss]

theorem processItems_error_of_mem {mapping : JunctionMapping}
    {intersection_id : String} {base_time duration : Int} {key : String}
    {value : Option Int} {e : String}
    (herr : processKey mapping intersection_id base_time duration key value = .error e) :
    ∀ items : List (String × Option Int), (key, value) ∈ items →
      ∃ e2, processItems mapping intersection_id base_time duration items = .error e2 := by
  intro items
  induction items with
  | nil => intro h; cases h
  | cons kv rest ih =>
    intro hmem
    obtain ⟨k2, v2⟩ := kv
    rcases List.mem_cons.mp hmem with heq | hmem2
    · -- the head is the failing key itself
      obtain ⟨h1, h2⟩ := Prod.ext_iff.mp heq
      dsimp only at h1 h2
      subst h1
      subst h2
      exact ⟨e, by simp only [processItems, herr]⟩
    · cases hpk : processKey mapping intersection_id base_time duration k2 v2 with
      | error e3 => exact ⟨e3, by simp only [processItems, hpk]⟩
      | ok o =>
        obtain ⟨e2, h2⟩ := ih hmem2
        cases o with
        | none => exact ⟨e2, by simp only [processItems, hpk, h2]⟩
        | some f => exact ⟨e2, by simp only [processItems, hpk, h2]⟩

theorem processRows_error_of_mem {mapping : JunctionMapping}
    {intersection_id : String} {simulation_start simulation_end : Int}
    {row : Row} {e : String}
    (herr : processRow mapping intersection_id simulation_start simulation_end row
      = .error e) :
    ∀ rows : List Row, row ∈ rows →
      ∃ e2, processRows mapping intersection_id simulation_start simulation_end rows
        = .error e2 := by
  intro rows
  induction rows with
  | nil => intro h; cases h
  | cons r rest ih =>
    intro hmem
    rcases List.mem_cons.mp hmem with rfl | hmem2
    · exact ⟨e, by simp only [processRows, herr]⟩
    · cases hpr : processRow mapping intersection_id simulation_start simulation_end r with
      | error e3 => exact ⟨e3, by simp only [processRows, hpr]⟩
      | ok fs =>
        obtain ⟨e2, h2⟩ := ih hmem2
        exact ⟨e2, by simp only [processRows, hpr, h2]⟩

/-- C2: if the flow decoding of an intersection can reach a movement key that
fully parses (valid origin letter, vehicle class, turn letter, positive
count, in a row inside the simulation window) but whose origin direction is
absent or empty in `mapping.incoming`, or whose destination direction is
absent or empty in `mapping.outgoing`, then `generate_flows_for_intersection`
raises; at pipeline level the whole intersection keeps zero flows (even ones
built from earlier rows or keys are discarded with the raise), exactly one
diagnostic entry is appended, and the loop continues with the remaining
intersections unchanged. -/
theorem C2_hard_stop_on_missing_direction (mapping : JunctionMapping) (rows : List Row)
    (intersection_id location_name : String) (simulation_start simulation_end : Int)
    (row : Row) (key : String) (value : Option Int)
    (pfx veh mov from_dir to_dir : String) (c : Int) (row_start row_end : Int)
    (hrow : row ∈ rows)
    (hst : row.start_time = some row_start) (het : row.end_time = some row_end)
    (hwindow : ¬(row_start < simulation_start ∨ row_start ≥ simulation_end))
    (hitem : (key, value) ∈ row.items)
    (hkey : key ∉ ignore_keys)
    (hkp : keyParts key = some (pfx, veh, mov))
    (hveh : veh = "cars" ∨ veh = "truck" ∨ veh = "bus")
    (hval : value = some c) (hc : 0 < c)
    (hfrom : dictGet incoming_mapping (strLower pfx) = some from_dir)
    (hto : dictGet ((dictGet outgoing_mapping (strLower mov)).getD [])
      (strLower pfx) = some to_dir)
    (hmiss : (dictGet mapping.incoming from_dir).getD [] = [] ∨
      (dictGet mapping.outgoing to_dir).getD [] = []) :
    ∃ e, generate_flows_for_intersection mapping rows intersection_id
        simulation_start simulation_end = .error e ∧
      ∀ (st : PipeState) (rest : List InterInput),
        runFlowStage simulation_start simulation_end st
            ({ mapping := mapping, rows := rows, junction_id := intersection_id,
               location_name := location_name } :: rest)
          = runFlowStage simulation_start simulation_end
              { st with incomplete := st.incomplete ++
                  ["Intersection " ++ location_name ++ " (ID: " ++ intersection_id ++
                    ") CSV processing error: " ++ e] } rest := by
  have hkerr := @processKey_error_of_missing_dir mapping intersection_id
    (row_start - simulation_start) (row_end - row_start) key value
    pfx veh mov from_dir to_dir c hkey hkp hveh hval hc hfrom hto hmiss
  obtain ⟨e2, hitems⟩ := processItems_error_of_mem hkerr row.items hitem
  have hrowerr : processRow mapping intersection_id simulation_start simulation_end row
      = .error e2 := by
    unfold processRow
    rw [hst, het]
    dsimp only
    rw [if_neg hwindow]
    exact hitems
  obtain ⟨e3, hrows⟩ := processRows_error_of_mem hrowerr rows hrow
  refine ⟨e3, hrows, ?_⟩
  intro st rest
  simp only [runFlowStage, flowStageStep, generate_flows_for_intersection, hrows]

/-- Witness for C2: the hard-stop scenario of spec section 8 (row
`n_appr_cars_t=5` in window, `incoming.north=[e1]` present but
`outgoing.south` absent) yields an error and a single diagnostic, with zero
flows and no details entry retained. -/
theorem C2_hard_stop_on_missing_direction_witness :
    generate_flows_for_intersection
        { incoming := [("north", ["e1"])], outgoing := [] }
        [{ start_time := some 1704096000, end_time := some 1704096900,
           items := [("n_appr_cars_t", some 5)] }]
        "J2" 1704096000 1704097800
      = .error ("Incomplete edge mapping for key n_appr_cars_t: " ++
          "missing incoming north or outgoing south.") ∧
      runFlowStage 1704096000 1704097800 { flows := [], details := [], incomplete := [] }
          [{ mapping := { incoming := [("north", ["e1"])], outgoing := [] },
             rows := [{ start_time := some 1704096000, end_time := some 1704096900,
                        items := [("n_appr_cars_t", some 5)] }],
             junction_id := "J2", location_name := "X" }]
        = { flows := [], details := [],
            incomplete := ["Intersection X (ID: J2) CSV processing error: " ++
              ("Incomplete edge mapping for key n_appr_cars_t: " ++
                "missing incoming north or outgoing south.")] } := by
  obtain ⟨e, hgen, hrun⟩ := C2_hard_stop_on_missing_direction
    { incoming := [("north", ["e1"])], outgoing := [] }
    [{ start_time := some 1704096000, end_time := some 1704096900,
       items := [("n_appr_cars_t", some 5)] }]
    "J2" "X" 1704096000 1704097800
    { start_time := some 1704096000, end_time := some 1704096900,
      items := [("n_appr_cars_t", some 5)] }
    "n_appr_cars_t" (some 5) "n" "cars" "t" "north" "south" 5 1704096000 1704096900
    (List.mem_cons_self _ _) rfl rfl (by decide) (List.mem_cons_self _ _)
    (by decide) rfl (Or.inl rfl) rfl (by decide) rfl rfl (Or.inr rfl)
  have hgen2 : generate_flows_for_intersection
      { incoming := [("north", ["e1"])], outgoing := [] }
      [{ start_time := some 1704096000, end_time := some 1704096900,
         items := [("n_appr_cars_t", some 5)] }]
      "J2" 1704096000 1704097800
      = .error ("Incomplete edge mapping for key n_appr_cars_t: " ++
          "missing incoming north or outgoing south.") := by rfl
  rw [hgen] at hgen2
  injection hgen2 with he
  subst he
  refine ⟨hgen, ?_⟩
  rw [hrun { flows := [], details := [], incomplete := [] } []]
  rfl

/-- C3: one intersection, a single row with key `n_appr_cars_t` of count 5,
row times 08:00:00-08:15:00 on 2024-01-01, simulation window
08:00:00-08:30:00 (epoch seconds 1704096000, 1704096900, 1704097800),
mapping `incoming.north=[e1]`, `outgoing.south=[e2]`: exactly one flow with
`begin=0, end=900, number=5, from=e1, to=e2, type=car`. -/
theorem C3_end_to_end_scenario :
    generate_flows_for_intersection
      { incoming := [("north", ["e1"])], outgoing := [("south", ["e2"])] }
      [{ start_time := some 1704096000, end_time := some 1704096900,
         items := [("n_appr_cars_t", some 5)] }]
      "J1" 1704096000 1704097800
    = .ok [{ id := "J1_n_appr_cars_t_0", fbegin := 0, fend := 900, number := 5,
             fromEdge := "e1", toEdge := "e2", vtype := "car" }] := by
  rfl

/-- C5: the overlap predicate is true iff some interval `(start, end)`
satisfies `qStart < end` and `qEnd > start`; window `[18,22)` against
`[(10,25),(30,40)]` overlaps, window `[26,29)` does not. -/
theorem C5_time_overlaps_iff :
    (∀ (intervals : List Interval) (qStart qEnd : Int),
        time_overlaps intervals qStart qEnd = true ↔
          ∃ iv ∈ intervals, qStart < iv.2 ∧ qEnd > iv.1) ∧
      time_overlaps [(10, 25), (30, 40)] 18 22 = true ∧
      time_overlaps [(10, 25), (30, 40)] 26 29 = false := by
  refine ⟨?_, by decide, by decide⟩
  intro intervals qStart qEnd
  simp [time_overlaps, List.any_eq_true]

/-! ### Direction classification (`edge_mapping.py`, lines 4-47)

`math.atan2(y, x)` is modelled over the reals as `Complex.arg ⟨x, y⟩`, which
agrees with `atan2` everywhere: it returns the angle of the point `(x, y)` in
`(-pi, pi]` and maps the origin to `0`.  `math.degrees` multiplies by
`180 / pi`.  The Python local `angle` is inlined into the two branches of the
final conditional expression. -/

/-- `compute_bearing` (lines 8-10): degrees of `atan2(y2-y1, x2-x1)`,
normalized into `[0, 360)` by adding 360 to negative angles. -/
noncomputable def compute_bearing (x1 y1 x2 y2 : ℝ) : ℝ :=
  if Complex.arg ⟨x2 - x1, y2 - y1⟩ * 180 / Real.pi < 0 then
    Complex.arg ⟨x2 - x1, y2 - y1⟩ * 180 / Real.pi + 360
  else Complex.arg ⟨x2 - x1, y2 - y1⟩ * 180 / Real.pi

/-- `classify_direction` (lines 12-20). -/
noncomputable def classify_direction (angle : ℝ) : String :=
  if 315 ≤ angle ∨ angle < 45 then "east"
  else if angle < 135 then "north"
  else if angle < 225 then "west"
  else "south"

/-- Substring containment (Python `in` on strings), structurally over the
character lists. -/
def charsContain (pat : List Char) : List Char → Bool
  | [] => pat.isEmpty
  | c :: rest => pat.isPrefixOf (c :: rest) || charsContain pat rest

/-- Python `pat in s` for strings. -/
def strContains (s pat : String) : Bool :=
  charsContain pat.toList s.toList

/-- `is_edge_for_cars` (lines 4-6) on the edge's type string: truthiness of
`etype and "highway" in etype and "footway" not in etype`. -/
def is_edge_for_cars (etype : String) : Bool :=
  (etype != "") && strContains etype "highway" && !(strContains etype "footway")

/-- The data of an incoming network edge used by the incoming-edge loop of
`map_junction_edges`: id (`edge.getID()`), type string (`edge.getType()`) and
the coordinates of `edge.getFromNode().getCoord()`. -/
structure NetEdge where
  id : String
  etype : String
  fromX : ℝ
  fromY : ℝ

/-- `mapping["incoming"].setdefault(direction, []).append(edge_id)` on the
dict modelled as an association list. -/
def addToDir (m : List (String × List String)) (dir edge_id : String) :
    List (String × List String) :=
  if m.any (fun kv => kv.1 == dir) then
    m.map (fun kv => if kv.1 == dir then (kv.1, kv.2 ++ [edge_id]) else kv)
  else m ++ [(dir, [edge_id])]

/-- The incoming-edge loop of `map_junction_edges` (lines 30-38): for every
drivable incoming edge the bearing is computed FROM the junction
(`junction.getCoord()`) TO the edge's from-node — the code marks this
`REVERSED` — classified, and the edge id is appended under that direction. -/
noncomputable def mapIncomingEdges (jx jy : ℝ) (edges : List NetEdge) :
    List (String × List String) :=
  edges.foldl
    (fun m e =>
      if is_edge_for_cars e.etype then
        addToDir m (classify_direction (compute_bearing jx jy e.fromX e.fromY)) e.id
      else m) []

theorem compute_bearing_unit_east : compute_bearing 0 0 1 0 = 0 := by
  unfold compute_bearing
  have hz : (⟨(1 : ℝ) - 0, (0 : ℝ) - 0⟩ : ℂ) = 1 := by
    apply Complex.ext <;> simp
  rw [hz, Complex.arg_one]
  norm_num

theorem compute_bearing_west_origin : compute_bearing (-1) 0 0 0 = 0 := by
  unfold compute_bearing
  have hz : (⟨(0 : ℝ) - (-1), (0 : ℝ) - 0⟩ : ℂ) = 1 := by
    apply Complex.ext <;> simp
  rw [hz, Complex.arg_one]
  norm_num

theorem compute_bearing_unit_north : compute_bearing 0 0 0 1 = 90 := by
  unfold compute_bearing
  have hz : (⟨(0 : ℝ) - 0, (1 : ℝ) - 0⟩ : ℂ) = Complex.I := by
    apply Complex.ext <;> simp
  rw [hz, Complex.arg_I]
  have hpi := Real.pi_ne_zero
  have hd : Real.pi / 2 * 180 / Real.pi = 90 := by
    field_simp
    ring
  rw [hd]
  norm_num

theorem compute_bearing_unit_west : compute_bearing 0 0 (-1) 0 = 180 := by
  unfold compute_bearing
  have hz : (⟨(-1 : ℝ) - 0, (0 : ℝ) - 0⟩ : ℂ) = -1 := by
    apply Complex.ext <;> simp
  rw [hz, Complex.arg_neg_one]
  have hpi := Real.pi_ne_zero
  have hd : Real.pi * 180 / Real.pi = 180 := by
    field_simp
  rw [hd]
  norm_num

theorem compute_bearing_unit_south : compute_bearing 0 0 0 (-1) = 270 := by
  unfold compute_bearing
  have hz : (⟨(0 : ℝ) - 0, (-1 : ℝ) - 0⟩ : ℂ) = -Complex.I := by
    apply Complex.ext <;> simp
  rw [hz, Complex.arg_neg_I]
  have hpi := Real.pi_ne_zero
  have hd : -(Real.pi / 2) * 180 / Real.pi = -90 := by
    field_simp
    ring
  rw [hd]
  norm_num

theorem classify_direction_at_0 : classify_direction 0 = "east" := by
  unfold classify_direction
  rw [if_pos (Or.inr (by norm_num))]

theorem classify_direction_at_90 : classify_direction 90 = "north" := by
  unfold classify_direction
  rw [if_neg (by push_neg; norm_num), if_pos (by norm_num)]

theorem classify_direction_at_180 : classify_direction 180 = "west" := by
  unfold classify_direction
  rw [if_neg (by push_neg; norm_num), if_neg (by norm_num), if_pos (by norm_num)]

theorem classify_direction_at_270 : classify_direction 270 = "south" := by
  unfold classify_direction
  rw [if_neg (by push_neg; norm_num), if_neg (by norm_num), if_neg (by norm_num)]

/-- The bearing always lands in `[0, 360)`. -/
theorem compute_bearing_mem_range (x1 y1 x2 y2 : ℝ) :
    0 ≤ compute_bearing x1 y1 x2 y2 ∧ compute_bearing x1 y1 x2 y2 < 360 := by
  unfold compute_bearing
  have hpi := Real.pi_pos
  have h1 : Complex.arg ⟨x2 - x1, y2 - y1⟩ ≤ Real.pi := Complex.arg_le_pi _
  have h2 : -Real.pi < Complex.arg ⟨x2 - x1, y2 - y1⟩ := Complex.neg_pi_lt_arg _
  have hub : Complex.arg ⟨x2 - x1, y2 - y1⟩ * 180 / Real.pi ≤ 180 := by
    rw [div_le_iff₀ hpi]
    nlinarith
  have hlb : -180 < Complex.arg ⟨x2 - x1, y2 - y1⟩ * 180 / Real.pi := by
    rw [lt_div_iff₀ hpi]
    nlinarith
  split
  · rename_i hneg
    constructor <;> linarith
  · rename_i hneg
    push_neg at hneg
    constructor <;> linarith

/-- The bucket structure of `classify_direction` on `[0, 360)`. -/
theorem classify_direction_buckets (a : ℝ) (ha0 : 0 ≤ a) (ha360 : a < 360) :
    (classify_direction a = "east" ↔ (315 ≤ a ∧ a < 360) ∨ (0 ≤ a ∧ a < 45)) ∧
      (classify_direction a = "north" ↔ 45 ≤ a ∧ a < 135) ∧
      (classify_direction a = "west" ↔ 135 ≤ a ∧ a < 225) ∧
      (classify_direction a = "south" ↔ 225 ≤ a ∧ a < 315) := by
  unfold classify_direction
  split_ifs with h1 h2 h3
  · refine ⟨iff_of_true rfl ?_, iff_of_false (by decide) ?_, iff_of_false (by decide) ?_,
      iff_of_false (by decide) ?_⟩
    · rcases h1 with h | h
      · exact Or.inl ⟨h, ha360⟩
      · exact Or.inr ⟨ha0, h⟩
    · rintro ⟨hx, hy⟩; rcases h1 with h | h <;> linarith
    · rintro ⟨hx, hy⟩; rcases h1 with h | h <;> linarith
    · rintro ⟨hx, hy⟩; rcases h1 with h | h <;> linarith
  · push_neg at h1
    refine ⟨iff_of_false (by decide) ?_, iff_of_true rfl ⟨h1.2, h2⟩,
      iff_of_false (by decide) ?_, iff_of_false (by decide) ?_⟩
    · rintro (⟨hx, hy⟩ | ⟨hx, hy⟩) <;> linarith [h1.1, h1.2]
    · rintro ⟨hx, hy⟩; linarith
    · rintro ⟨hx, hy⟩; linarith
  · push_neg at h1 h2
    refine ⟨iff_of_false (by decide) ?_, iff_of_false (by decide) ?_,
      iff_of_true rfl ⟨h2, h3⟩, iff_of_false (by decide) ?_⟩
    · rintro (⟨hx, hy⟩ | ⟨hx, hy⟩) <;> linarith [h1.1, h1.2]
    · rintro ⟨hx, hy⟩; linarith
    · rintro ⟨hx, hy⟩; linarith
  · push_neg at h1 h2 h3
    refine ⟨iff_of_false (by decide) ?_, iff_of_false (by decide) ?_,
      iff_of_false (by decide) ?_, iff_of_true rfl ⟨h3, h1.1⟩⟩
    · rintro (⟨hx, hy⟩ | ⟨hx, hy⟩) <;> linarith [h1.1, h1.2]
    · rintro ⟨hx, hy⟩; linarith
    · rintro ⟨hx, hy⟩; linarith

/-- C6: for distinct points the bearing lies in `[0,360)`; classification
buckets are `[315,360) ∪ [0,45) -> east`, `[45,135) -> north`,
`[135,225) -> west`, `[225,315) -> south` (so the boundary angles 45, 135,
225, 315 belong to the upper bucket), and points at the exact angles 0, 90,
180, 270 classify east, north, west, south. -/
theorem C6_bearing_range_and_buckets :
    (∀ x1 y1 x2 y2 : ℝ, (x1, y1) ≠ (x2, y2) →
        0 ≤ compute_bearing x1 y1 x2 y2 ∧ compute_bearing x1 y1 x2 y2 < 360) ∧
      (∀ a : ℝ, 0 ≤ a → a < 360 →
        (classify_direction a = "east" ↔ (315 ≤ a ∧ a < 360) ∨ (0 ≤ a ∧ a < 45)) ∧
          (classify_direction a = "north" ↔ 45 ≤ a ∧ a < 135) ∧
          (classify_direction a = "west" ↔ 135 ≤ a ∧ a < 225) ∧
          (classify_direction a = "south" ↔ 225 ≤ a ∧ a < 315)) ∧
      classify_direction (compute_bearing 0 0 1 0) = "east" ∧
      classify_direction (compute_bearing 0 0 0 1) = "north" ∧
      classify_direction (compute_bearing 0 0 (-1) 0) = "west" ∧
      classify_direction (compute_bearing 0 0 0 (-1)) = "south" ∧
      classify_direction 45 = "north" ∧ classify_direction 135 = "west" ∧
      classify_direction 225 = "south" ∧ classify_direction 315 = "east" := by
  refine ⟨fun x1 y1 x2 y2 _ => compute_bearing_mem_range x1 y1 x2 y2,
    classify_direction_buckets, ?_, ?_, ?_, ?_, ?_, ?_, ?_, ?_⟩
  · rw [compute_bearing_unit_east, classify_direction_at_0]
  · rw [compute_bearing_unit_north, classify_direction_at_90]
  · rw [compute_bearing_unit_west, classify_direction_at_180]
  · rw [compute_bearing_unit_south, classify_direction_at_270]
  · unfold classify_direction
    rw [if_neg (by push_neg; norm_num), if_pos (by norm_num)]
  · unfold classify_direction
    rw [if_neg (by push_neg; norm_num), if_neg (by norm_num), if_pos (by norm_num)]
  · unfold classify_direction
    rw [if_neg (by push_neg; norm_num), if_neg (by norm_num), if_neg (by norm_num)]
  · unfold classify_direction
    rw [if_pos (Or.inl (by norm_num))]

/-- Witness for C6 at the concrete points `(0,0) -> (1,0)` and angle 90. -/
theorem C6_bearing_range_and_buckets_witness :
    (0 ≤ compute_bearing 0 0 1 0 ∧ compute_bearing 0 0 1 0 < 360) ∧
      (classify_direction (90 : ℝ) = "east" ↔
          (315 ≤ (90 : ℝ) ∧ (90 : ℝ) < 360) ∨ (0 ≤ (90 : ℝ) ∧ (90 : ℝ) < 45)) ∧
        (classify_direction (90 : ℝ) = "north" ↔ 45 ≤ (90 : ℝ) ∧ (90 : ℝ) < 135) ∧
        (classify_direction (90 : ℝ) = "west" ↔ 135 ≤ (90 : ℝ) ∧ (90 : ℝ) < 225) ∧
        (classify_direction (90 : ℝ) = "south" ↔ 225 ≤ (90 : ℝ) ∧ (90 : ℝ) < 315) :=
  ⟨C6_bearing_range_and_buckets.1 0 0 1 0 (by simp [Prod.ext_iff]),
    C6_bearing_range_and_buckets.2.1 90 (by norm_num) (by norm_num)⟩

/-- C9: bearing plus classification is total — every pair of real coordinate
pairs, the coincident one included, yields one of the four directions — and
the coincident pair gives bearing 0 and classification east. -/
theorem C9_total_and_coincident_east :
    (∀ x1 y1 x2 y2 : ℝ,
        classify_direction (compute_bearing x1 y1 x2 y2) = "east" ∨
          classify_direction (compute_bearing x1 y1 x2 y2) = "north" ∨
          classify_direction (compute_bearing x1 y1 x2 y2) = "west" ∨
          classify_direction (compute_bearing x1 y1 x2 y2) = "south") ∧
      ∀ x y : ℝ, compute_bearing x y x y = 0 ∧
        classify_direction (compute_bearing x y x y) = "east" := by
  have htotal : ∀ a : ℝ, classify_direction a = "east" ∨ classify_direction a = "north" ∨
      classify_direction a = "west" ∨ classify_direction a = "south" := by
    intro a
    unfold classify_direction
    split_ifs
    · exact Or.inl rfl
    · exact Or.inr (Or.inl rfl)
    · exact Or.inr (Or.inr (Or.inl rfl))
    · exact Or.inr (Or.inr (Or.inr rfl))
  have hco : ∀ x y : ℝ, compute_bearing x y x y = 0 := by
    intro x y
    unfold compute_bearing
    have hz : (⟨x - x, y - y⟩ : ℂ) = 0 := by
      apply Complex.ext <;> simp
    rw [hz, Complex.arg_zero]
    norm_num
  exact ⟨fun x1 y1 x2 y2 => htotal _,
    fun x y => ⟨hco x y, by rw [hco x y]; exact classify_direction_at_0⟩⟩

/-! ### C1: which bearing classifies an incoming edge -/

theorem dictGet_map_append_mem {dir edge_id : String} :
    ∀ m : List (String × List String), m.any (fun kv => kv.1 == dir) = true →
      edge_id ∈ (dictGet (m.map
        (fun kv => if kv.1 == dir then (kv.1, kv.2 ++ [edge_id]) else kv)) dir).getD [] := by
  intro m
  induction m with
  | nil => intro h; simp at h
  | cons kv rest ih =>
    intro hany
    by_cases hk : kv.1 = dir
    · unfold dictGet
      rw [List.map_cons]
      have hh : (if (kv.1 == dir) = true then (kv.1, kv.2 ++ [edge_id]) else kv)
          = (kv.1, kv.2 ++ [edge_id]) := by simp [hk]
      rw [hh, List.find?_cons_of_pos _ (by simp [hk])]
      simp
    · have hrest : rest.any (fun kv => kv.1 == dir) = true := by
        rcases List.any_eq_true.mp hany with ⟨q, hq, hq2⟩
        rcases List.mem_cons.mp hq with rfl | hq3
        · exact absurd (by simpa using hq2) hk
        · exact List.any_eq_true.mpr ⟨q, hq3, hq2⟩
      have hmem := ih hrest
      unfold dictGet at *
      rw [List.map_cons]
      have hh : (if (kv.1 == dir) = true then (kv.1, kv.2 ++ [edge_id]) else kv) = kv := by
        simp [hk]
      rw [hh, List.find?_cons_of_neg _ (by simp [hk])]
      exact hmem

theorem dictGet_append_self {dir : String} {v : List String} :
    ∀ m : List (String × List String), m.any (fun kv => kv.1 == dir) = false →
      dictGet (m ++ [(dir, v)]) dir = some v := by
  intro m
  induction m with
  | nil =>
    intro _
    unfold dictGet
    rw [List.nil_append, List.find?_cons_of_pos _ (by simp)]
    rfl
  | cons kv rest ih =>
    intro hany
    rw [List.any_cons, Bool.or_eq_false_iff] at hany
    unfold dictGet at *
    rw [List.cons_append, List.find?_cons_of_neg _ (by simp [hany.1])]
    exact ih hany.2

theorem addToDir_mem_self (m : List (String × List String)) (dir edge_id : String) :
    edge_id ∈ (dictGet (addToDir m dir edge_id) dir).getD [] := by
  unfold addToDir
  split
  · exact dictGet_map_append_mem m (by assumption)
  · rw [dictGet_append_self m (by rename_i h; exact Bool.of_not_eq_true (by simpa using h))]
    simp

theorem addToDir_mem_preserve {dir edge_id : String} (d2 i2 : String) :
    ∀ m : List (String × List String),
      edge_id ∈ (dictGet m dir).getD [] →
      edge_id ∈ (dictGet (addToDir m d2 i2) dir).getD [] := by
  intro m hmem
  unfold addToDir
  split
  · -- overwrite-in-place branch; keys are preserved by the map
    clear * - hmem
    induction m with
    | nil => simp [dictGet] at hmem
    | cons kv rest ih =>
      by_cases hk : kv.1 = dir
      · unfold dictGet at hmem ⊢
        rw [List.find?_cons_of_pos _ (by simp [hk])] at hmem
        rw [List.map_cons]
        by_cases hd2 : kv.1 = d2
        · have hh : (if (kv.1 == d2) = true then (kv.1, kv.2 ++ [i2]) else kv)
              = (kv.1, kv.2 ++ [i2]) := by simp [hd2]
          rw [hh, List.find?_cons_of_pos _ (by simp [hk])]
          have hmem2 : edge_id ∈ kv.2 := by simpa using hmem
          have hm3 : edge_id ∈ kv.2 ++ [i2] := List.mem_append_left _ hmem2
          simpa using hm3
        · have hh : (if (kv.1 == d2) = true then (kv.1, kv.2 ++ [i2]) else kv) = kv := by
            simp [hd2]
          rw [hh, List.find?_cons_of_pos _ (by simp [hk])]
          exact hmem
      · unfold dictGet at hmem ⊢
        rw [List.find?_cons_of_neg _ (by simp [hk])] at hmem
        rw [List.map_cons]
        have hkey : (if (kv.1 == d2) = true then (kv.1, kv.2 ++ [i2]) else kv).1 = kv.1 := by
          split <;> rfl
        rw [List.find?_cons_of_neg _ (by rw [hkey]; simp [hk])]
        exact ih hmem
  · -- append branch; the lookup resolves in the original prefix
    cases hm : dictGet m dir with
    | none => rw [hm] at hmem; simp at hmem
    | some v =>
      have hfind : dictGet (m ++ [(d2, [i2])]) dir = some v := by
        clear * - hm
        induction m with
        | nil => simp [dictGet] at hm
        | cons kv rest ih =>
          unfold dictGet at hm ⊢
          rw [List.cons_append]
          by_cases hk : kv.1 = dir
          · rw [List.find?_cons_of_pos _ (by simp [hk])] at hm
            rw [List.find?_cons_of_pos _ (by simp [hk])]
            exact hm
          · rw [List.find?_cons_of_neg _ (by simp [hk])] at hm
            rw [List.find?_cons_of_neg _ (by simp [hk])]
            exact ih hm
      rw [hfind]
      rw [hm] at hmem
      exact hmem

theorem foldl_incoming_mem (jx jy : ℝ) :
    ∀ (edges : List NetEdge) (m : List (String × List String)) (e : NetEdge),
      ((e ∈ edges ∧ is_edge_for_cars e.etype = true) ∨
        e.id ∈ (dictGet m
          (classify_direction (compute_bearing jx jy e.fromX e.fromY))).getD []) →
      e.id ∈ (dictGet (edges.foldl
        (fun m e2 =>
          if is_edge_for_cars e2.etype then
            addToDir m (classify_direction (compute_bearing jx jy e2.fromX e2.fromY)) e2.id
          else m) m)
        (classify_direction (compute_bearing jx jy e.fromX e.fromY))).getD [] := by
  intro edges
  induction edges with
  | nil =>
    intro m e h
    rcases h with ⟨hmem, -⟩ | h
    · cases hmem
    · exact h
  | cons e2 rest ih =>
    intro m e h
    rw [List.foldl_cons]
    rcases h with ⟨hmem, hcars⟩ | h
    · rcases List.mem_cons.mp hmem with rfl | hmem2
      · refine ih _ e (Or.inr ?_)
        rw [if_pos hcars]
        exact addToDir_mem_self m _ e.id
      · exact ih _ e (Or.inl ⟨hmem2, hcars⟩)
    · refine ih _ e (Or.inr ?_)
      split
      · exact addToDir_mem_preserve _ _ m h
      · exact h

/-- C1 counterexample: the drivable incoming edge `E1` whose from-node
`(-1, 0)` lies due west of the junction `(0, 0)` is filed under `west`
(the code classifies the bearing junction -> from-node, which is 180), while
the claim's bearing — from the from-node to the junction — is 0 and
classifies `east`; the mapping holds no edge under `east`. -/
theorem C1_counterexample :
    is_edge_for_cars "highway" = true ∧
      mapIncomingEdges 0 0 [{ id := "E1", etype := "highway", fromX := -1, fromY := 0 }]
        = [("west", ["E1"])] ∧
      classify_direction (compute_bearing (-1) 0 0 0) = "east" ∧
      "E1" ∉ (dictGet
        (mapIncomingEdges 0 0 [{ id := "E1", etype := "highway", fromX := -1, fromY := 0 }])
        (classify_direction (compute_bearing (-1) 0 0 0))).getD [] := by
  have heast : classify_direction (compute_bearing (-1) 0 0 0) = "east" := by
    rw [compute_bearing_west_origin, classify_direction_at_0]
  have hmap : mapIncomingEdges 0 0
      [{ id := "E1", etype := "highway", fromX := -1, fromY := 0 }] = [("west", ["E1"])] := by
    unfold mapIncomingEdges
    rw [List.foldl_cons, List.foldl_nil]
    rw [if_pos (by decide)]
    have hdir : classify_direction (compute_bearing 0 0
        ({ id := "E1", etype := "highway", fromX := -1, fromY := 0 } : NetEdge).fromX
        ({ id := "E1", etype := "highway", fromX := -1, fromY := 0 } : NetEdge).fromY)
        = "west" := by
      show classify_direction (compute_bearing 0 0 (-1) 0) = "west"
      rw [compute_bearing_unit_west, classify_direction_at_180]
    rw [hdir]
    decide
  refine ⟨by decide, hmap, heast, ?_⟩
  rw [hmap, heast]
  decide

/-- C1 as amended: every drivable incoming edge is classified under the
compass direction of the bearing computed from the junction to the edge's
from-node — the reverse of the bearing named by the claim — which is the
compass direction the traffic arrives from. -/
theorem C1_incoming_classified_by_junction_to_from_node_bearing
    (jx jy : ℝ) (edges : List NetEdge) (e : NetEdge)
    (hmem : e ∈ edges) (hcars : is_edge_for_cars e.etype = true) :
    e.id ∈ (dictGet (mapIncomingEdges jx jy edges)
      (classify_direction (compute_bearing jx jy e.fromX e.fromY))).getD [] := by
  unfold mapIncomingEdges
  exact foldl_incoming_mem jx jy edges [] e (Or.inl ⟨hmem, hcars⟩)

/-- Witness for the amended C1 at the concrete edge of the counterexample
setting. -/
theorem C1_incoming_classified_witness :
    "E1" ∈ (dictGet
      (mapIncomingEdges 0 0 [{ id := "E1", etype := "highway", fromX := -1, fromY := 0 }])
      (classify_direction (compute_bearing 0 0 (-1) 0))).getD [] :=
  C1_incoming_classified_by_junction_to_from_node_bearing 0 0
    [{ id := "E1", etype := "highway", fromX := -1, fromY := 0 }]
    { id := "E1", etype := "highway", fromX := -1, fromY := 0 }
    (List.mem_cons_self _ _) (by decide)

end CrossFlow
